import Mathlib

/-!
Verification of the ApplicationService core logic.

The TypeScript sources embedded here:
* `src/webserver/services/project_service.ts` — `ProjectService.buildFileStructure`
  (flat record batch → forest), `ProjectService.listFiles` (page fetch: the pure
  part that turns the store response into the route result), and the query
  parameters `listFiles` sends to the remote store.
* `src/webserver/models/files_models.ts` (shipped unnamed) — the `ProjectFile`
  record shape.
* The pagination middleware (`middleware/pagination.ts`) and the HATEOAS link
  helper (`lib/hateoas.ts`) are referenced by the routes and the README but
  their sources are not part of the snapshot; they are modelled from the spec
  where needed and marked as such.

JavaScript `Map` objects are modelled as association lists with
insert-or-replace-in-place semantics (`jsSet`) and first-match lookup
(`jsGet`), which is exactly the observable behaviour of `Map.set` / `Map.get`
together with insertion-order iteration.  The mutable tree nodes of
`buildFileStructure` (one heap object per `FileID`, shared between the lookup
map, the root array and the `children` maps) are modelled by keeping the node
store explicit: `fileMap` maps an id to the wrapped record, `childMap` maps a
parent id to that node's `children` map (name → child id), and `roots` is the
list of ids pushed into `rootFiles`.  A returned tree node is recovered from
its id through these maps, so reachability through `children` is reachability
through `childMap`.
-/

namespace AppService

/-- The `ProjectFile` record from `files_models.ts`.  `FileID` is
`number | null` in TypeScript, but `buildFileStructure` dereferences it with a
non-null assertion (`file.FileID!`), so it is modelled as the id itself.
`ParentDirectory` is `number | null` and is modelled as `Option Int`. -/
structure ProjectFile where
  FileID : Int
  ProjectID : Int
  ParentDirectory : Option Int
  FileName : String
  IsDirectory : Bool
  CreationDate : Nat
deriving Repr, DecidableEq

/-- JavaScript `Map.get`: the value stored under the key, if any. -/
def jsGet {α β : Type} [DecidableEq α] : List (α × β) → α → Option β
  | [], _ => none
  | e :: rest, k => if e.1 = k then some e.2 else jsGet rest k

/-- JavaScript `Map.set`: replace the value in place if the key is present,
otherwise append the new entry (insertion-order semantics of `Map`). -/
def jsSet {α β : Type} [DecidableEq α] : List (α × β) → α → β → List (α × β)
  | [], k, v => [(k, v)]
  | e :: rest, k, v => if e.1 = k then (k, v) :: rest else e :: jsSet rest k v

/-- The guard `if (file.ParentDirectory)` in `buildFileStructure` tests
JavaScript truthiness: both `null` and `0` are falsy.  `parentKey f` is the
parent id the code actually looks up, `none` when the guard fails. -/
def parentKey (f : ProjectFile) : Option Int :=
  match f.ParentDirectory with
  | none => none
  | some p => if p = 0 then none else some p

/-- The ids of a batch, in input order. -/
def idsOf (files : List ProjectFile) : List Int :=
  files.map (·.FileID)

/-- First pass of `buildFileStructure`: `fileMap.set(file.FileID!, {file, children: new Map()})`
for each record in input order.  Children start empty, so only the wrapped
record is stored here; `children` maps live in `childMap`. -/
def initMap (files : List ProjectFile) : List (Int × ProjectFile) :=
  files.foldl (fun m f => jsSet m f.FileID f) []

/-- The result state of `buildFileStructure`: the node store (`fileMap`), the
`children` map of each node (`childMap`, keyed by the node's id, missing key =
empty map), and the `rootFiles` array (`roots`, as ids). -/
structure FileStructure where
  fileMap : List (Int × ProjectFile)
  childMap : List (Int × List (String × Int))
  roots : List Int
deriving Repr, DecidableEq

/-- One iteration of the second `files.forEach` of `buildFileStructure`:
if the record's `ParentDirectory` is truthy and resolves in `fileMap`, set the
record's node as a child of the parent under key `FileName`; if it is falsy,
push the node onto `rootFiles`; otherwise (truthy but unresolved) do nothing. -/
def buildStep (fm : List (Int × ProjectFile))
    (acc : List (Int × List (String × Int)) × List Int) (f : ProjectFile) :
    List (Int × List (String × Int)) × List Int :=
  match parentKey f with
  | some p =>
      match jsGet fm p with
      | some _ =>
          (jsSet acc.1 p (jsSet ((jsGet acc.1 p).getD []) f.FileName f.FileID), acc.2)
      | none => acc
  | none => (acc.1, acc.2 ++ [f.FileID])

/-- `ProjectService.buildFileStructure`: first pass builds `fileMap`, second
pass links children and collects roots. -/
def buildFileStructure (files : List ProjectFile) : FileStructure :=
  let fm := initMap files
  let st := files.foldl (buildStep fm) ([], [])
  ⟨fm, st.1, st.2⟩

/-- Lookup of `children.get(name)` on the node with id `p` in the result. -/
def getChild (st : FileStructure) (p : Int) (name : String) : Option Int :=
  jsGet ((jsGet st.childMap p).getD []) name

/-- The ids of all children of the node with id `p` (the values of its
`children` map). -/
def childIdsOf (st : FileStructure) (p : Int) : List Int :=
  ((jsGet st.childMap p).getD []).map (·.2)

/-- The filter the second pass effectively applies at a fixed parent id and
name: records whose truthy parent is `p` and whose name is `name`. -/
def matchKey (p : Int) (name : String) (f : ProjectFile) : Bool :=
  decide (parentKey f = some p) && decide (f.FileName = name)

/-- Append each element of `new` that is not already in `s` (set-union on
lists keeping the first list intact). -/
def addNew (s : List Int) (new : List Int) : List Int :=
  new.foldl (fun acc c => if c ∈ acc then acc else acc ++ [c]) s

/-- Breadth-first saturation of the ids reachable from the root-level
sequence of a built structure through `children` maps: iteration `n + 1` adds
every child of every id reached by iteration `n`. -/
def reachIter (st : FileStructure) : Nat → List Int
  | 0 => addNew [] st.roots
  | n + 1 =>
      let s := reachIter st n
      addNew s (s.flatMap (childIdsOf st))

/-- The number of distinct nodes reachable from the root-level sequence
through `children`, transitively; `fuel` iterations of expansion (the batch
length always suffices, see the reachability lemmas). -/
def reachableCount (st : FileStructure) (fuel : Nat) : Nat :=
  (reachIter st fuel).length

/-- Depth of a record above its root along `ParentDirectory` links resolved
against the batch lookup map: `some 0` for a record whose parent reference is
falsy, `some (d + 1)` when the parent resolves in the batch and itself has
depth `d`, `none` when the chain leaves the batch or the fuel runs out. -/
def rootDepth (files : List ProjectFile) : Nat → ProjectFile → Option Nat
  | 0, _ => none
  | fuel + 1, f =>
      match parentKey f with
      | none => some 0
      | some p =>
          match jsGet (initMap files) p with
          | none => none
          | some g => (rootDepth files fuel g).map (· + 1)

/-- No two records of the batch are siblings with the same name: records with
equal truthy parent references and equal names are equal.  (Stated with
bounded quantifiers so that it is decidable on concrete batches.) -/
def noDupSib (files : List ProjectFile) : Prop :=
  ∀ f ∈ files, ∀ g ∈ files, parentKey f = parentKey g →
    (parentKey f).isSome → f.FileName = g.FileName → f = g

/-- The body of the 200-branch of `ProjectService.listFiles` receives this
from the remote store: the page of records and the store's reported total
item count (`response.data.total`, which `listProjects` reads but `listFiles`
never touches). -/
structure StoreFilesResponse where
  data : List ProjectFile
  total : Nat
deriving Repr, DecidableEq

/-- The pure result construction of `ProjectService.listFiles` on a 200
response: `return { total: files.length, files: this.buildFileStructure(files) }`.
The route handler for GET /project_files passes the first component to the
HATEOAS link generator as the total. -/
def listFilesResult (resp : StoreFilesResponse) : Nat × FileStructure :=
  (resp.data.length, buildFileStructure resp.data)

/-- The query parameters `listFiles` sends to the remote project store. -/
structure ListFilesParams where
  ProjectID : Int
  limit : Int
  offset : Int
deriving Repr, DecidableEq

/-- The params object built in `ProjectService.listFiles` for the GET request:
the source hard-codes the fetch size (the line reads
limit: 100, // Adjust limit as needed) and never reads the limit argument. -/
def listFilesRequestParams (ProjectID : Int) (limit : Int) (offset : Int) :
    ListFilesParams :=
  ⟨ProjectID, 100, offset⟩

/-- A raw query-parameter value as the pagination middleware receives it:
absent, present but not numeric, or carrying an integer value. -/
inductive RawQueryValue where
  | missing
  | nonNumeric (s : String)
  | numeric (n : Int)
deriving Repr, DecidableEq

/-- Modelled from the spec: the pagination middleware
(`middleware/pagination.ts`, listed in the README and consumed by the
GET /project_files route as `req.pagination`, but absent from the snapshot).
Per spec section 4.1: parse the limit as an integer and substitute the default
25 when it is missing, non-numeric, zero, or negative; parse the offset as an
integer and substitute 0 when it is missing, non-numeric, or negative. -/
def paginationCompute (rawLimit rawOffset : RawQueryValue) : Int × Int :=
  (match rawLimit with
   | .numeric n => if n ≤ 0 then 25 else n
   | _ => 25,
   match rawOffset with
   | .numeric n => if n < 0 then 0 else n
   | _ => 0)

/-- One navigation link: the base URL (carrying the preserved filter
parameters) together with the limit and offset it encodes. -/
structure PageLink where
  baseUrl : String
  limit : Int
  offset : Int
deriving Repr, DecidableEq

/-- The LinkSet produced by the HATEOAS helper. -/
structure LinkSet where
  self : PageLink
  first : PageLink
  last : PageLink
  prev : Option PageLink
  next : Option PageLink
deriving Repr, DecidableEq

/-- Modelled from the spec: the HATEOAS link helper (`lib/hateoas.ts`,
imported by the GET /project_files route as `generateHATEOASLinks`, but
absent from the snapshot).  Per spec section 4.2: `self` keeps the window as
given, `first` uses offset 0, `last` uses `max 0 ((total - 1) / limit * limit)`
when `total > 0` and 0 otherwise, `prev` exists only when `offset > 0` with
offset `max 0 (offset - limit)`, and `next` exists only when
`offset + limit < total` with offset `offset + limit`. -/
def hateoasBuild (baseUrl : String) (total limit offset : Int) : LinkSet where
  self := ⟨baseUrl, limit, offset⟩
  first := ⟨baseUrl, limit, 0⟩
  last := ⟨baseUrl, limit, if 0 < total then max 0 ((total - 1) / limit * limit) else 0⟩
  prev := if 0 < offset then some ⟨baseUrl, limit, max 0 (offset - limit)⟩ else none
  next := if offset + limit < total then some ⟨baseUrl, limit, offset + limit⟩ else none

/-! ### Basic association-list (JavaScript Map) lemmas -/

theorem jsGet_nil {α β : Type} [DecidableEq α] (k : α) :
    jsGet ([] : List (α × β)) k = none := rfl

theorem jsGet_cons {α β : Type} [DecidableEq α] (e : α × β) (rest : List (α × β)) (k : α) :
    jsGet (e :: rest) k = if e.1 = k then some e.2 else jsGet rest k := rfl

theorem jsSet_nil {α β : Type} [DecidableEq α] (k : α) (v : β) :
    jsSet ([] : List (α × β)) k v = [(k, v)] := rfl

theorem jsSet_cons {α β : Type} [DecidableEq α] (e : α × β) (rest : List (α × β))
    (k : α) (v : β) :
    jsSet (e :: rest) k v = if e.1 = k then (k, v) :: rest else e :: jsSet rest k v := rfl

theorem jsGet_jsSet {α β : Type} [DecidableEq α] (m : List (α × β)) (k k' : α) (v : β) :
    jsGet (jsSet m k v) k' = if k' = k then some v else jsGet m k' := by
  induction m with
  | nil =>
      rw [jsSet_nil, jsGet_cons, jsGet_nil]
      by_cases h : k' = k
      · rw [if_pos h, if_pos (show (k, v).1 = k' from h.symm)]
      · rw [if_neg h, if_neg (show ¬(k, v).1 = k' from fun hh => h hh.symm)]
  | cons e rest ih =>
      rw [jsSet_cons]
      by_cases he : e.1 = k
      · rw [if_pos he, jsGet_cons, jsGet_cons]
        by_cases h : k' = k
        · rw [if_pos h, if_pos (show (k, v).1 = k' from h.symm)]
        · rw [if_neg h, if_neg (show ¬(k, v).1 = k' from fun hh => h hh.symm),
            if_neg (show ¬e.1 = k' from by rw [he]; exact fun hh => h hh.symm)]
      · rw [if_neg he, jsGet_cons, jsGet_cons, ih]
        by_cases h1 : e.1 = k'
        · have h2 : ¬k' = k := fun hh => he (by rw [h1, hh])
          rw [if_pos h1, if_neg h2, if_pos h1]
        · by_cases h2 : k' = k
          · rw [if_neg h1, if_pos h2, if_pos h2]
          · rw [if_neg h1, if_neg h2, if_neg h2, if_neg h1]

theorem jsGet_jsSet_self {α β : Type} [DecidableEq α] (m : List (α × β)) (k : α) (v : β) :
    jsGet (jsSet m k v) k = some v := by
  simp [jsGet_jsSet]

theorem jsGet_jsSet_ne {α β : Type} [DecidableEq α] (m : List (α × β)) {k k' : α} (v : β)
    (h : k' ≠ k) : jsGet (jsSet m k v) k' = jsGet m k' := by
  simp [jsGet_jsSet, h]

theorem mem_jsSet {α β : Type} [DecidableEq α] {m : List (α × β)} {k : α} {v : β}
    {e : α × β} (h : e ∈ jsSet m k v) : e ∈ m ∨ e = (k, v) := by
  induction m with
  | nil => simpa [jsSet] using h
  | cons e' rest ih =>
      by_cases he : e'.1 = k
      · simp only [jsSet, he, if_pos] at h
        rcases List.mem_cons.1 h with h | h
        · exact Or.inr h
        · exact Or.inl (List.mem_cons_of_mem _ h)
      · simp only [jsSet, he, if_neg, not_false_iff] at h
        rcases List.mem_cons.1 h with h | h
        · exact Or.inl (by simp [h])
        · rcases ih h with h | h
          · exact Or.inl (List.mem_cons_of_mem _ h)
          · exact Or.inr h

theorem jsGet_mem {α β : Type} [DecidableEq α] {m : List (α × β)} {k : α} {v : β}
    (h : jsGet m k = some v) : (k, v) ∈ m := by
  induction m with
  | nil => simp [jsGet] at h
  | cons e rest ih =>
      obtain ⟨a, b⟩ := e
      rw [jsGet_cons] at h
      by_cases he : a = k
      · rw [if_pos he] at h
        cases h
        subst he
        exact List.mem_cons_self _ _
      · rw [if_neg he] at h
        exact List.mem_cons_of_mem _ (ih h)

/-! ### First pass: the id-to-node lookup map -/

theorem jsGet_initFoldl_isSome (p : Int) :
    ∀ (files : List ProjectFile) (m : List (Int × ProjectFile)),
      (jsGet (files.foldl (fun m f => jsSet m f.FileID f) m) p).isSome ↔
        p ∈ idsOf files ∨ (jsGet m p).isSome := by
  intro files
  induction files with
  | nil => simp [idsOf]
  | cons f rest ih =>
      intro m
      rw [List.foldl_cons, ih]
      constructor
      · rintro (h | h)
        · exact Or.inl (by simp [idsOf] at h ⊢; exact Or.inr h)
        · rw [jsGet_jsSet] at h
          by_cases hp : p = f.FileID
          · exact Or.inl (by simp [idsOf, hp])
          · rw [if_neg hp] at h
            exact Or.inr h
      · rintro (h | h)
        · simp only [idsOf, List.map_cons, List.mem_cons] at h
          rcases h with h | h
          · refine Or.inr ?_
            rw [jsGet_jsSet, if_pos h]
            rfl
          · exact Or.inl h
        · by_cases hp : p = f.FileID
          · refine Or.inr ?_
            rw [jsGet_jsSet, if_pos hp]
            rfl
          · refine Or.inr ?_
            rw [jsGet_jsSet, if_neg hp]
            exact h

theorem jsGet_initMap_isSome (files : List ProjectFile) (p : Int) :
    (jsGet (initMap files) p).isSome ↔ p ∈ idsOf files := by
  rw [initMap, jsGet_initFoldl_isSome]
  simp [jsGet]

theorem jsGet_initFoldl_sound (p : Int) (Q : ProjectFile → Prop) :
    ∀ (files : List ProjectFile) (m : List (Int × ProjectFile)),
      (∀ r, jsGet m p = some r → Q r) →
      (∀ f ∈ files, f.FileID = p → Q f) →
      ∀ r, jsGet (files.foldl (fun m f => jsSet m f.FileID f) m) p = some r → Q r := by
  intro files
  induction files with
  | nil => intro m hm _ r hr; exact hm r hr
  | cons f rest ih =>
      intro m hm hf r hr
      rw [List.foldl_cons] at hr
      refine ih _ ?_ (fun g hg => hf g (List.mem_cons_of_mem _ hg)) r hr
      intro r' hr'
      rw [jsGet_jsSet] at hr'
      by_cases hp : p = f.FileID
      · rw [if_pos hp] at hr'
        cases hr'
        exact hf f (List.mem_cons_self _ _) hp.symm
      · rw [if_neg hp] at hr'
        exact hm r' hr'

theorem jsGet_initMap_sound {files : List ProjectFile} {p : Int} {r : ProjectFile}
    (h : jsGet (initMap files) p = some r) : r ∈ files ∧ r.FileID = p := by
  refine jsGet_initFoldl_sound p (fun r => r ∈ files ∧ r.FileID = p) files []
    (by intro r hr; simp [jsGet] at hr) (fun f hf hfp => ⟨hf, hfp⟩) r h

theorem jsGet_initFoldl_not_mem (p : Int) :
    ∀ (files : List ProjectFile) (m : List (Int × ProjectFile)),
      p ∉ idsOf files →
      jsGet (files.foldl (fun m f => jsSet m f.FileID f) m) p = jsGet m p := by
  intro files
  induction files with
  | nil => intro m _; rfl
  | cons f rest ih =>
      intro m hp
      simp only [idsOf, List.map_cons, List.mem_cons, not_or] at hp
      rw [List.foldl_cons, ih _ (by simpa [idsOf] using hp.2), jsGet_jsSet, if_neg hp.1]

theorem jsGet_initFoldl_of_nodup :
    ∀ (files : List ProjectFile) (m : List (Int × ProjectFile)) (f : ProjectFile),
      f ∈ files → (idsOf files).Nodup →
      jsGet (files.foldl (fun m f => jsSet m f.FileID f) m) f.FileID = some f := by
  intro files
  induction files with
  | nil => intro m f hf; cases hf
  | cons g rest ih =>
      intro m f hf h1
      simp only [idsOf, List.map_cons, List.nodup_cons] at h1
      rw [List.foldl_cons]
      rcases List.mem_cons.1 hf with h | h
      · subst h
        rw [jsGet_initFoldl_not_mem _ _ _ h1.1, jsGet_jsSet_self]
      · exact ih _ f h h1.2

theorem jsGet_initMap_of_nodup {files : List ProjectFile}
    (h1 : (idsOf files).Nodup) {f : ProjectFile} (hf : f ∈ files) :
    jsGet (initMap files) f.FileID = some f :=
  jsGet_initFoldl_of_nodup files [] f hf h1

/-! ### Second pass: the root-level sequence -/

theorem roots_foldl (fm : List (Int × ProjectFile)) :
    ∀ (files : List ProjectFile) (acc : List (Int × List (String × Int)) × List Int),
      (files.foldl (buildStep fm) acc).2 =
        acc.2 ++ (files.filter (fun f => (parentKey f).isNone)).map (·.FileID) := by
  intro files
  induction files with
  | nil => intro acc; simp
  | cons f rest ih =>
      intro acc
      rw [List.foldl_cons, ih]
      cases hp : parentKey f with
      | none => simp [buildStep, hp, List.filter_cons]
      | some p => cases hg : jsGet fm p <;> simp [buildStep, hp, hg, List.filter_cons]

/-- The root-level sequence of the built structure is exactly the ids of the
records whose parent reference is falsy, in input order. -/
theorem roots_build (files : List ProjectFile) :
    (buildFileStructure files).roots =
      (files.filter (fun f => (parentKey f).isNone)).map (·.FileID) := by
  show (files.foldl (buildStep (initMap files)) ([], [])).2 = _
  rw [roots_foldl]
  rfl

/-! ### Second pass: the children maps -/

theorem getChild_foldl_nomatch (fm : List (Int × ProjectFile)) (p : Int) (name : String) :
    ∀ (files : List ProjectFile) (acc : List (Int × List (String × Int)) × List Int),
      (∀ g ∈ files, matchKey p name g = false) →
      jsGet ((jsGet (files.foldl (buildStep fm) acc).1 p).getD []) name =
        jsGet ((jsGet acc.1 p).getD []) name := by
  intro files
  induction files with
  | nil => intro acc _; rfl
  | cons g rest ih =>
      intro acc hno
      rw [List.foldl_cons, ih _ (fun g' hg' => hno g' (List.mem_cons_of_mem _ hg'))]
      have hg := hno g (List.mem_cons_self _ _)
      cases hp : parentKey g with
      | none => simp [buildStep, hp]
      | some p' =>
          cases hres : jsGet fm p' with
          | none => simp [buildStep, hp, hres]
          | some w =>
              simp only [buildStep, hp, hres]
              by_cases hpp : p' = p
              · subst hpp
                rw [jsGet_jsSet_self]
                show jsGet (jsSet ((jsGet acc.1 p').getD []) g.FileName g.FileID) name = _
                have hname : ¬name = g.FileName := by
                  intro hn
                  rw [matchKey, hp, hn] at hg
                  simp at hg
                rw [jsGet_jsSet, if_neg hname]
              · rw [jsGet_jsSet, if_neg (fun hh => hpp hh.symm)]

theorem getChild_buildStep_match (fm : List (Int × ProjectFile))
    (acc : List (Int × List (String × Int)) × List Int) (f : ProjectFile)
    (p : Int) (name : String)
    (hm : matchKey p name f = true) (hres : (jsGet fm p).isSome) :
    jsGet ((jsGet (buildStep fm acc f).1 p).getD []) name = some f.FileID := by
  rw [matchKey, Bool.and_eq_true, decide_eq_true_eq, decide_eq_true_eq] at hm
  obtain ⟨w, hw⟩ := Option.isSome_iff_exists.1 hres
  simp only [buildStep, hm.1, hw]
  rw [jsGet_jsSet_self]
  show jsGet (jsSet ((jsGet acc.1 p).getD []) f.FileName f.FileID) name = _
  rw [jsGet_jsSet, if_pos hm.2.symm]

/-- Last-write-wins characterization: if the batch splits as
`l1 ++ f :: l2` where `f` matches the parent id and name, the parent id
resolves in the batch, and no record after `f` matches the same parent id and
name, then the parent's children entry under that name is the node for `f`. -/
theorem getChild_build_last (l1 l2 : List ProjectFile) (f : ProjectFile)
    (p : Int) (name : String)
    (hm : matchKey p name f = true)
    (hres : p ∈ idsOf (l1 ++ f :: l2))
    (hno : ∀ g ∈ l2, matchKey p name g = false) :
    getChild (buildFileStructure (l1 ++ f :: l2)) p name = some f.FileID := by
  have hres' : (jsGet (initMap (l1 ++ f :: l2)) p).isSome :=
    (jsGet_initMap_isSome _ p).2 hres
  show jsGet ((jsGet ((l1 ++ f :: l2).foldl (buildStep (initMap (l1 ++ f :: l2))) ([], [])).1 p).getD []) name = _
  rw [List.foldl_append, List.foldl_cons]
  rw [getChild_foldl_nomatch _ _ _ l2 _ hno]
  exact getChild_buildStep_match _ _ _ _ _ hm hres'

theorem getChild_foldl_sound (fm : List (Int × ProjectFile)) (p : Int) (name : String)
    (c : Int) :
    ∀ (files : List ProjectFile) (acc : List (Int × List (String × Int)) × List Int),
      jsGet ((jsGet (files.foldl (buildStep fm) acc).1 p).getD []) name = some c →
      jsGet ((jsGet acc.1 p).getD []) name = some c ∨
        ∃ f, f ∈ files ∧ matchKey p name f = true ∧ f.FileID = c ∧ (jsGet fm p).isSome := by
  intro files
  induction files with
  | nil => intro acc h; exact Or.inl h
  | cons g rest ih =>
      intro acc h
      rw [List.foldl_cons] at h
      rcases ih _ h with h' | ⟨f, hf, hmk, hfc, hres⟩
      · cases hp : parentKey g with
        | none =>
            simp only [buildStep, hp] at h'
            exact Or.inl h'
        | some p' =>
            cases hres : jsGet fm p' with
            | none =>
                simp only [buildStep, hp, hres] at h'
                exact Or.inl h'
            | some w =>
                simp only [buildStep, hp, hres] at h'
                by_cases hpp : p' = p
                · subst hpp
                  rw [jsGet_jsSet_self] at h'
                  have h'' : jsGet (jsSet ((jsGet acc.1 p').getD []) g.FileName g.FileID) name = some c := h'
                  rw [jsGet_jsSet] at h''
                  by_cases hn : name = g.FileName
                  · rw [if_pos hn] at h''
                    cases h''
                    refine Or.inr ⟨g, List.mem_cons_self _ _, ?_, rfl, by rw [hres]; rfl⟩
                    rw [matchKey, hp, hn]
                    simp
                  · rw [if_neg hn] at h''
                    exact Or.inl h''
                · rw [jsGet_jsSet, if_neg (fun hh => hpp hh.symm)] at h'
                  exact Or.inl h'
      · exact Or.inr ⟨f, List.mem_cons_of_mem _ hf, hmk, hfc, hres⟩

/-- Soundness of children entries: every children entry of the built structure
comes from a record of the batch whose truthy parent reference is the parent id
and whose name is the key, and the parent id occurs in the batch. -/
theorem getChild_build_sound {files : List ProjectFile} {p : Int} {name : String} {c : Int}
    (h : getChild (buildFileStructure files) p name = some c) :
    ∃ f, f ∈ files ∧ matchKey p name f = true ∧ f.FileID = c ∧ p ∈ idsOf files := by
  have h' := getChild_foldl_sound (initMap files) p name c files ([], []) h
  rcases h' with h' | ⟨f, hf, hmk, hfc, hres⟩
  · cases h'
  · exact ⟨f, hf, hmk, hfc, (jsGet_initMap_isSome files p).1 hres⟩

theorem childVal_foldl (fm : List (Int × ProjectFile)) (Q : Int → Prop) :
    ∀ (files : List ProjectFile) (acc : List (Int × List (String × Int)) × List Int),
      (∀ i lst, jsGet acc.1 i = some lst → ∀ e ∈ lst, Q e.2) →
      (∀ f ∈ files, Q f.FileID) →
      ∀ i lst, jsGet (files.foldl (buildStep fm) acc).1 i = some lst → ∀ e ∈ lst, Q e.2 := by
  intro files
  induction files with
  | nil => intro acc hinv _; exact hinv
  | cons g rest ih =>
      intro acc hinv hQ
      rw [List.foldl_cons]
      refine ih _ ?_ (fun f hf => hQ f (List.mem_cons_of_mem _ hf))
      intro i lst hget e he
      cases hp : parentKey g with
      | none =>
          simp only [buildStep, hp] at hget
          exact hinv i lst hget e he
      | some p' =>
          cases hres : jsGet fm p' with
          | none =>
              simp only [buildStep, hp, hres] at hget
              exact hinv i lst hget e he
          | some w =>
              simp only [buildStep, hp, hres] at hget
              rw [jsGet_jsSet] at hget
              by_cases hip : i = p'
              · rw [if_pos hip] at hget
                cases hget
                rcases mem_jsSet he with he' | he'
                · cases hacc : jsGet acc.1 p' with
                  | none => rw [hacc] at he'; cases he'
                  | some l0 =>
                      rw [hacc] at he'
                      exact hinv p' l0 hacc e he'
                · rw [he']
                  exact hQ g (List.mem_cons_self _ _)
              · rw [if_neg hip] at hget
                exact hinv i lst hget e he

/-- Every children value of the built structure is the id of some record of
the batch. -/
theorem childVal_build {files : List ProjectFile} {i : Int} {lst : List (String × Int)}
    (h : jsGet (buildFileStructure files).childMap i = some lst) :
    ∀ e ∈ lst, ∃ f, f ∈ files ∧ f.FileID = e.2 := by
  intro e he
  refine childVal_foldl (initMap files) (fun c => ∃ f, f ∈ files ∧ f.FileID = c) files ([], [])
    ?_ (fun f hf => ⟨f, hf, rfl⟩) i lst h e he
  intro i lst hget
  cases hget

/-! ### Characterizations under the data-model invariants -/

theorem nodup_files_of_nodup_ids {files : List ProjectFile}
    (h1 : (idsOf files).Nodup) : files.Nodup :=
  List.Nodup.of_map _ h1

theorem id_inj_of_nodup {files : List ProjectFile} (h1 : (idsOf files).Nodup)
    {f g : ProjectFile} (hf : f ∈ files) (hg : g ∈ files)
    (h : f.FileID = g.FileID) : f = g :=
  List.inj_on_of_nodup_map h1 hf hg h

/-- Membership in the root-level sequence, extensionally: exactly the ids of
records whose parent reference is falsy. -/
theorem mem_roots_build {files : List ProjectFile} {i : Int} :
    i ∈ (buildFileStructure files).roots ↔
      ∃ f, f ∈ files ∧ parentKey f = none ∧ f.FileID = i := by
  rw [roots_build]
  constructor
  · intro h
    rcases List.mem_map.1 h with ⟨f, hf, rfl⟩
    have hm := List.mem_filter.1 hf
    exact ⟨f, hm.1, Option.isNone_iff_eq_none.1 hm.2, rfl⟩
  · rintro ⟨f, hf, hp, rfl⟩
    exact List.mem_map.2 ⟨f, List.mem_filter.2 ⟨hf, by rw [hp]; rfl⟩, rfl⟩

/-- With both data-model invariants (unique ids, unique sibling names) the
children entry under a resolvable parent id and a name is the id of the unique
matching record. -/
theorem getChild_build_of_mem {files : List ProjectFile}
    (h1 : (idsOf files).Nodup) (h3 : noDupSib files)
    {f : ProjectFile} {p : Int} {name : String} (hf : f ∈ files)
    (hm : matchKey p name f = true) (hres : p ∈ idsOf files) :
    getChild (buildFileStructure files) p name = some f.FileID := by
  obtain ⟨l1, l2, rfl⟩ := List.append_of_mem hf
  refine getChild_build_last l1 l2 f p name hm hres ?_
  intro g hg
  cases hmg : matchKey p name g with
  | false => rfl
  | true =>
      exfalso
      rw [matchKey, Bool.and_eq_true, decide_eq_true_eq, decide_eq_true_eq] at hm hmg
      have hgf : g = f :=
        h3 g (List.mem_append.2 (Or.inr (List.mem_cons_of_mem _ hg))) f hf
          (by rw [hmg.1, hm.1]) (by rw [hmg.1]; rfl) (by rw [hmg.2, hm.2])
      have hnd : (l1 ++ f :: l2).Nodup := nodup_files_of_nodup_ids h1
      have hfl2 : f ∉ l2 :=
        (List.nodup_cons.1 (hnd.sublist (List.sublist_append_right l1 (f :: l2)))).1
      exact hfl2 (hgf ▸ hg)

/-- Extensional characterization of children entries under the data-model
invariants. -/
theorem getChild_build_iff {files : List ProjectFile}
    (h1 : (idsOf files).Nodup) (h3 : noDupSib files) {p : Int} {name : String} {c : Int} :
    getChild (buildFileStructure files) p name = some c ↔
      ∃ f, f ∈ files ∧ matchKey p name f = true ∧ f.FileID = c ∧ p ∈ idsOf files := by
  constructor
  · exact getChild_build_sound
  · rintro ⟨f, hf, hm, rfl, hres⟩
    exact getChild_build_of_mem h1 h3 hf hm hres

/-! ### Reachability through children maps -/

theorem mem_addNew (x : Int) : ∀ (new s : List Int), x ∈ addNew s new ↔ x ∈ s ∨ x ∈ new := by
  intro new
  induction new with
  | nil => intro s; simp [addNew]
  | cons c cs ih =>
      intro s
      show x ∈ addNew (if c ∈ s then s else s ++ [c]) cs ↔ _
      rw [ih]
      by_cases hc : c ∈ s
      · rw [if_pos hc]
        simp only [List.mem_cons]
        constructor
        · rintro (h | h)
          · exact Or.inl h
          · exact Or.inr (Or.inr h)
        · rintro (h | h | h)
          · exact Or.inl h
          · exact Or.inl (h ▸ hc)
          · exact Or.inr h
      · rw [if_neg hc]
        constructor
        · rintro (h | h)
          · rcases List.mem_append.1 h with h | h
            · exact Or.inl h
            · exact Or.inr (List.mem_cons.2 (Or.inl (List.mem_singleton.1 h)))
          · exact Or.inr (List.mem_cons_of_mem _ h)
        · rintro (h | h)
          · exact Or.inl (List.mem_append.2 (Or.inl h))
          · rcases List.mem_cons.1 h with h | h
            · exact Or.inl (List.mem_append.2 (Or.inr (List.mem_singleton.2 h)))
            · exact Or.inr h

theorem nodup_addNew : ∀ (new s : List Int), s.Nodup → (addNew s new).Nodup := by
  intro new
  induction new with
  | nil => intro s h; exact h
  | cons c cs ih =>
      intro s h
      show (addNew (if c ∈ s then s else s ++ [c]) cs).Nodup
      by_cases hc : c ∈ s
      · rw [if_pos hc]
        exact ih s h
      · rw [if_neg hc]
        refine ih _ (List.nodup_append.2 ⟨h, List.nodup_singleton c, ?_⟩)
        intro a ha hb
        rw [List.mem_singleton] at hb
        exact hc (hb ▸ ha)

theorem reachIter_nodup (st : FileStructure) : ∀ n, (reachIter st n).Nodup := by
  intro n
  induction n with
  | zero => exact nodup_addNew st.roots [] List.nodup_nil
  | succ n ih => exact nodup_addNew _ _ ih

theorem reachIter_subset_succ (st : FileStructure) (n : Nat) :
    reachIter st n ⊆ reachIter st (n + 1) := by
  intro x hx
  show x ∈ addNew (reachIter st n) ((reachIter st n).flatMap (childIdsOf st))
  exact (mem_addNew x _ _).2 (Or.inl hx)

theorem reachIter_subset_le (st : FileStructure) {n m : Nat} (h : n ≤ m) :
    reachIter st n ⊆ reachIter st m := by
  induction m with
  | zero => cases Nat.le_zero.1 h; exact fun x hx => hx
  | succ m ih =>
      rcases Nat.lt_or_ge n (m + 1) with hlt | hge
      · exact fun x hx => reachIter_subset_succ st m (ih (Nat.lt_succ_iff.1 hlt) hx)
      · have : n = m + 1 := Nat.le_antisymm h hge
        subst this
        exact fun x hx => hx

theorem roots_mem_reachIter (st : FileStructure) {x : Int} (h : x ∈ st.roots) (n : Nat) :
    x ∈ reachIter st n :=
  reachIter_subset_le st (Nat.zero_le n) ((mem_addNew x _ _).2 (Or.inr h))

theorem reachIter_child (st : FileStructure) {x c : Int} {n : Nat}
    (hx : x ∈ reachIter st n) (hc : c ∈ childIdsOf st x) :
    c ∈ reachIter st (n + 1) := by
  show c ∈ addNew (reachIter st n) ((reachIter st n).flatMap (childIdsOf st))
  exact (mem_addNew c _ _).2 (Or.inr (List.mem_flatMap.2 ⟨x, hx, hc⟩))

theorem reachIter_subset_ids (files : List ProjectFile) :
    ∀ (n : Nat) (x : Int), x ∈ reachIter (buildFileStructure files) n → x ∈ idsOf files := by
  intro n
  induction n with
  | zero =>
      intro x hx
      rcases (mem_addNew x _ _).1 hx with h | h
      · cases h
      · rcases mem_roots_build.1 h with ⟨f, hf, _, rfl⟩
        exact List.mem_map.2 ⟨f, hf, rfl⟩
  | succ n ih =>
      intro x hx
      have hx' : x ∈ addNew (reachIter (buildFileStructure files) n)
          ((reachIter (buildFileStructure files) n).flatMap (childIdsOf (buildFileStructure files))) := hx
      rcases (mem_addNew x _ _).1 hx' with h | h
      · exact ih x h
      · rcases List.mem_flatMap.1 h with ⟨y, _, hxy⟩
        rw [childIdsOf] at hxy
        cases hc : jsGet (buildFileStructure files).childMap y with
        | none => rw [hc] at hxy; cases hxy
        | some lst =>
            rw [hc] at hxy
            rcases List.mem_map.1 hxy with ⟨e, he, rfl⟩
            rcases childVal_build hc e he with ⟨f, hf, hfe⟩
            exact List.mem_map.2 ⟨f, hf, hfe⟩

theorem rootDepth_lt (files : List ProjectFile) :
    ∀ (fuel : Nat) (f : ProjectFile) (d : Nat),
      rootDepth files fuel f = some d → d < fuel := by
  intro fuel
  induction fuel with
  | zero => intro f d h; cases h
  | succ fuel ih =>
      intro f d h
      cases hp : parentKey f with
      | none =>
          simp only [rootDepth, hp, Option.some.injEq] at h
          omega
      | some p =>
          cases hg : jsGet (initMap files) p with
          | none =>
              simp only [rootDepth, hp, hg] at h
              cases h
          | some g =>
              cases hd : rootDepth files fuel g with
              | none =>
                  simp only [rootDepth, hp, hg, hd, Option.map_none'] at h
                  cases h
              | some d' =>
                  simp only [rootDepth, hp, hg, hd, Option.map_some', Option.some.injEq] at h
                  have := ih g d' hd
                  omega

/-- Completeness of reachability: under the data-model invariants, every
record whose parent chain reaches a root within the batch is reachable from
the root-level sequence within as many expansion steps as its depth. -/
theorem reach_of_depth {files : List ProjectFile}
    (h1 : (idsOf files).Nodup) (h3 : noDupSib files) :
    ∀ (fuel : Nat) (f : ProjectFile) (d k : Nat), f ∈ files →
      rootDepth files fuel f = some d → d ≤ k →
      f.FileID ∈ reachIter (buildFileStructure files) k := by
  intro fuel
  induction fuel with
  | zero => intro f d k _ h; cases h
  | succ fuel ih =>
      intro f d k hf h hdk
      cases hp : parentKey f with
      | none =>
          refine roots_mem_reachIter _ ?_ k
          exact mem_roots_build.2 ⟨f, hf, hp, rfl⟩
      | some p =>
          cases hg : jsGet (initMap files) p with
          | none =>
              simp only [rootDepth, hp, hg] at h
              cases h
          | some g =>
              cases hd : rootDepth files fuel g with
              | none =>
                  simp only [rootDepth, hp, hg, hd, Option.map_none'] at h
                  cases h
              | some d' =>
                  simp only [rootDepth, hp, hg, hd, Option.map_some', Option.some.injEq] at h
                  subst h
                  obtain ⟨hgmem, hgid⟩ := jsGet_initMap_sound hg
                  have hk1 : 1 ≤ k := le_trans (Nat.succ_le_succ (Nat.zero_le d')) hdk
                  have hgk : g.FileID ∈ reachIter (buildFileStructure files) (k - 1) :=
                    ih g d' (k - 1) hgmem hd (by omega)
                  have hmk : matchKey p f.FileName f = true := by
                    rw [matchKey, hp]
                    simp
                  have hres : p ∈ idsOf files := by
                    rw [← hgid]
                    exact List.mem_map.2 ⟨g, hgmem, rfl⟩
                  have hedge : getChild (buildFileStructure files) p f.FileName = some f.FileID :=
                    getChild_build_of_mem h1 h3 hf hmk hres
                  have hchild : f.FileID ∈ childIdsOf (buildFileStructure files) p := by
                    rw [getChild] at hedge
                    rw [childIdsOf]
                    cases hcm : jsGet (buildFileStructure files).childMap p with
                    | none => rw [hcm] at hedge; cases hedge
                    | some lst =>
                        rw [hcm] at hedge
                        exact List.mem_map.2 ⟨(f.FileName, f.FileID), jsGet_mem hedge, rfl⟩
                  have := reachIter_child (buildFileStructure files) (hgid ▸ hgk) hchild
                  have hk2 : k - 1 + 1 = k := by omega
                  rw [hk2] at this
                  exact this

/-- Under the data-model invariants, when every record of the batch is
grounded (its parent chain reaches a falsy parent within the batch), the
number of distinct nodes reachable from the root-level sequence equals the
batch size. -/
theorem reachableCount_build {files : List ProjectFile}
    (h1 : (idsOf files).Nodup)
    (h2 : ∀ f ∈ files, (rootDepth files files.length f).isSome)
    (h3 : noDupSib files) :
    reachableCount (buildFileStructure files) files.length = files.length := by
  have hsub1 : reachIter (buildFileStructure files) files.length ⊆ idsOf files :=
    fun x hx => reachIter_subset_ids files _ x hx
  have hsub2 : idsOf files ⊆ reachIter (buildFileStructure files) files.length := by
    intro x hx
    rcases List.mem_map.1 hx with ⟨f, hf, rfl⟩
    obtain ⟨d, hd⟩ := Option.isSome_iff_exists.1 (h2 f hf)
    exact reach_of_depth h1 h3 _ f d files.length hf hd
      (Nat.le_of_lt (rootDepth_lt files _ f d hd))
  have hnd : (reachIter (buildFileStructure files) files.length).Nodup :=
    reachIter_nodup _ _
  have hlen1 := (hnd.subperm hsub1).length_le
  have hlen2 := (h1.subperm hsub2).length_le
  have hmap : (idsOf files).length = files.length := List.length_map _ _
  rw [reachableCount]
  omega

instance noDupSibDecidable (files : List ProjectFile) : Decidable (noDupSib files) := by
  unfold noDupSib
  infer_instance

theorem fileMap_build (files : List ProjectFile) :
    (buildFileStructure files).fileMap = initMap files := rfl

theorem parentKey_ne_some_zero (g : ProjectFile) : parentKey g ≠ some 0 := by
  cases hgp : g.ParentDirectory with
  | none => simp [parentKey, hgp]
  | some p => by_cases hp0 : p = 0 <;> simp [parentKey, hgp, hp0]

/-! ### The claims -/

/-- C1, counterexample: a single-record batch whose record has the non-null
parent reference 99, which matches no id in the batch.  The claim says the
record appears in the root-level sequence; in fact the root-level sequence of
the built structure is empty, so the record is omitted. -/
theorem claim_C1_counterexample :
    (ProjectFile.mk 3 101 (some 99) "b.txt" false 0).ParentDirectory = some 99 ∧
      (99 : Int) ∉ idsOf [ProjectFile.mk 3 101 (some 99) "b.txt" false 0] ∧
      (ProjectFile.mk 3 101 (some 99) "b.txt" false 0).FileID ∉
        (buildFileStructure [ProjectFile.mk 3 101 (some 99) "b.txt" false 0]).roots := by
  decide

/-- C1 (amended): a record whose truthy parent reference does not match any id
of the batch is omitted from the result entirely — it appears neither in the
root-level sequence nor as a children entry of any node — and the call still
returns normally (the embedding is a total function). -/
theorem claim_C1_amended {files : List ProjectFile} {f : ProjectFile} {p : Int}
    (h1 : (idsOf files).Nodup) (hf : f ∈ files)
    (hp : parentKey f = some p) (hnores : p ∉ idsOf files) :
    f.FileID ∉ (buildFileStructure files).roots ∧
      ∀ q name, getChild (buildFileStructure files) q name ≠ some f.FileID := by
  constructor
  · intro hmem
    rcases mem_roots_build.1 hmem with ⟨g, hg, hgp, hgid⟩
    rw [id_inj_of_nodup h1 hg hf hgid, hp] at hgp
    cases hgp
  · intro q name hq
    rcases getChild_build_sound hq with ⟨g, hg, hmk, hgid, hres⟩
    rw [matchKey, Bool.and_eq_true, decide_eq_true_eq, decide_eq_true_eq] at hmk
    rw [id_inj_of_nodup h1 hg hf hgid] at hmk
    rw [hmk.1] at hp
    cases hp
    exact hnores hres

/-- C1, witness for the amended claim at a concrete orphan record. -/
theorem claim_C1_witness :
    (ProjectFile.mk 3 101 (some 99) "b.txt" false 0).FileID ∉
        (buildFileStructure [ProjectFile.mk 3 101 (some 99) "b.txt" false 0]).roots ∧
      ∀ q name, getChild (buildFileStructure [ProjectFile.mk 3 101 (some 99) "b.txt" false 0])
        q name ≠ some (ProjectFile.mk 3 101 (some 99) "b.txt" false 0).FileID :=
  claim_C1_amended (p := 99) (by decide) (by decide) (by decide) (by decide)

/-- C2, counterexample: a single-record batch (distinct ids trivially) whose
record has an unresolvable truthy parent reference.  The claim says the number
of nodes reachable from the root-level sequence equals the batch size 1; in
fact it is 0 — the record is dropped. -/
theorem claim_C2_counterexample :
    (idsOf [ProjectFile.mk 5 101 (some 77) "c.txt" false 0]).Nodup ∧
      reachableCount (buildFileStructure [ProjectFile.mk 5 101 (some 77) "c.txt" false 0])
          [ProjectFile.mk 5 101 (some 77) "c.txt" false 0].length ≠
        [ProjectFile.mk 5 101 (some 77) "c.txt" false 0].length := by
  decide

/-- C2 (amended): the function always terminates (it is a total structural
recursion), and for a batch with distinct ids in which every record is
grounded (its parent chain reaches a record with a falsy parent reference
inside the batch, so no orphan parents and no parent cycles) and no two
siblings share a name, the number of distinct nodes reachable from the
root-level sequence through children maps equals the batch size. -/
theorem claim_C2_amended {files : List ProjectFile}
    (h1 : (idsOf files).Nodup)
    (h2 : ∀ f ∈ files, (rootDepth files files.length f).isSome)
    (h3 : noDupSib files) :
    reachableCount (buildFileStructure files) files.length = files.length :=
  reachableCount_build h1 h2 h3

/-- C2, witness for the amended claim on a concrete two-record batch
(a directory and one child). -/
theorem claim_C2_witness :
    reachableCount
        (buildFileStructure [ProjectFile.mk 1 101 none "src" true 0,
          ProjectFile.mk 2 101 (some 1) "a.txt" false 0])
        [ProjectFile.mk 1 101 none "src" true 0,
          ProjectFile.mk 2 101 (some 1) "a.txt" false 0].length =
      [ProjectFile.mk 1 101 none "src" true 0,
        ProjectFile.mk 2 101 (some 1) "a.txt" false 0].length :=
  claim_C2_amended (by decide) (by decide) (by decide)

/-- C3, counterexample: a store response whose reported total is 42 while the
fetched page holds one record.  The claim says the total used for the HATEOAS
links and returned by the file-listing operation equals the store-reported
count; in fact `listFiles` returns `files.length`, here 1. -/
theorem claim_C3_counterexample :
    (listFilesResult (StoreFilesResponse.mk [ProjectFile.mk 1 101 none "a.txt" false 0] 42)).1 ≠
      (StoreFilesResponse.mk [ProjectFile.mk 1 101 none "a.txt" false 0] 42).total := by
  decide

/-- C3 (amended): the total returned by the file-listing operation (and then
passed by the GET /project_files route to the HATEOAS link generator) is
always the length of the fetched page's data array, computed locally; the
store's reported count is ignored. -/
theorem claim_C3_amended (resp : StoreFilesResponse) :
    (listFilesResult resp).1 = resp.data.length := rfl

/-- C4: the limit query parameter of the request `listFiles` sends to the
remote project store is the constant 100, whatever limit the caller supplied;
in particular two calls differing only in the caller limit send identical
parameters. -/
theorem claim_C4 (ProjectID limit offset : Int) :
    (listFilesRequestParams ProjectID limit offset).limit = 100 ∧
      ∀ limit2, listFilesRequestParams ProjectID limit offset =
        listFilesRequestParams ProjectID limit2 offset :=
  ⟨rfl, fun _ => rfl⟩

/-- C5: two sibling records with the same truthy parent reference and the same
name, the parent id present in the batch — the children entry under that name
is the node of the record appearing later in input order (here `f2`, which
follows `f1`, with no later match after it). -/
theorem claim_C5 {l1 l2 l3 : List ProjectFile} {f1 f2 : ProjectFile} {p : Int} {name : String}
    (h1 : (idsOf (l1 ++ f1 :: (l2 ++ f2 :: l3))).Nodup)
    (hm1 : matchKey p name f1 = true)
    (hm2 : matchKey p name f2 = true)
    (hres : p ∈ idsOf (l1 ++ f1 :: (l2 ++ f2 :: l3)))
    (hno : ∀ g ∈ l3, matchKey p name g = false) :
    getChild (buildFileStructure (l1 ++ f1 :: (l2 ++ f2 :: l3))) p name = some f2.FileID ∧
      jsGet (buildFileStructure (l1 ++ f1 :: (l2 ++ f2 :: l3))).fileMap f2.FileID = some f2 := by
  have hsplit : l1 ++ f1 :: (l2 ++ f2 :: l3) = (l1 ++ f1 :: l2) ++ f2 :: l3 := by simp
  constructor
  · rw [hsplit] at hres ⊢
    exact getChild_build_last _ _ _ _ _ hm2 hres hno
  · have hmem : f2 ∈ l1 ++ f1 :: (l2 ++ f2 :: l3) :=
      List.mem_append.2 (Or.inr (List.mem_cons_of_mem _
        (List.mem_append.2 (Or.inr (List.mem_cons_self _ _)))))
    exact jsGet_initMap_of_nodup h1 hmem

/-- C5, witness: a directory with two same-named children; the entry is the
later child (id 4). -/
theorem claim_C5_witness :
    getChild (buildFileStructure ([ProjectFile.mk 1 101 none "src" true 0] ++
        ProjectFile.mk 2 101 (some 1) "a.txt" false 0 ::
          ([] ++ ProjectFile.mk 4 101 (some 1) "a.txt" false 0 :: []))) 1 "a.txt" =
      some (ProjectFile.mk 4 101 (some 1) "a.txt" false 0).FileID ∧
      jsGet (buildFileStructure ([ProjectFile.mk 1 101 none "src" true 0] ++
          ProjectFile.mk 2 101 (some 1) "a.txt" false 0 ::
            ([] ++ ProjectFile.mk 4 101 (some 1) "a.txt" false 0 :: []))).fileMap
          (ProjectFile.mk 4 101 (some 1) "a.txt" false 0).FileID =
        some (ProjectFile.mk 4 101 (some 1) "a.txt" false 0) :=
  claim_C5 (by decide) (by decide) (by decide) (by decide) (by decide)

/-- C6: for a batch with distinct ids and no duplicate sibling names, any
permutation of the batch yields the same children entries (as a partial
function from parent id and name to child id) and the same root-level
membership, i.e. the same parent/child relation between records. -/
theorem claim_C6 {files files2 : List ProjectFile}
    (h1 : (idsOf files).Nodup) (h3 : noDupSib files) (hperm : files.Perm files2) :
    (∀ p name c, getChild (buildFileStructure files) p name = some c ↔
        getChild (buildFileStructure files2) p name = some c) ∧
      ∀ i, i ∈ (buildFileStructure files).roots ↔ i ∈ (buildFileStructure files2).roots := by
  have hpm : (idsOf files).Perm (idsOf files2) := by
    unfold idsOf
    exact hperm.map (fun f => f.FileID)
  have h1' : (idsOf files2).Nodup := hpm.nodup_iff.1 h1
  have h3' : noDupSib files2 := fun f hf g hg =>
    h3 f (hperm.mem_iff.2 hf) g (hperm.mem_iff.2 hg)
  have hids : ∀ q : Int, q ∈ idsOf files ↔ q ∈ idsOf files2 :=
    fun _ => hpm.mem_iff
  constructor
  · intro p name c
    rw [getChild_build_iff h1 h3, getChild_build_iff h1' h3']
    constructor
    · rintro ⟨f, hf, hm, hc, hr⟩
      exact ⟨f, hperm.mem_iff.1 hf, hm, hc, (hids p).1 hr⟩
    · rintro ⟨f, hf, hm, hc, hr⟩
      exact ⟨f, hperm.mem_iff.2 hf, hm, hc, (hids p).2 hr⟩
  · intro i
    rw [mem_roots_build, mem_roots_build]
    constructor
    · rintro ⟨f, hf, hp, hi⟩
      exact ⟨f, hperm.mem_iff.1 hf, hp, hi⟩
    · rintro ⟨f, hf, hp, hi⟩
      exact ⟨f, hperm.mem_iff.2 hf, hp, hi⟩

/-- C6, witness on a two-record batch and its reversal. -/
theorem claim_C6_witness :
    (∀ p name c,
        getChild (buildFileStructure [ProjectFile.mk 1 101 none "src" true 0,
          ProjectFile.mk 2 101 (some 1) "a.txt" false 0]) p name = some c ↔
        getChild (buildFileStructure [ProjectFile.mk 2 101 (some 1) "a.txt" false 0,
          ProjectFile.mk 1 101 none "src" true 0]) p name = some c) ∧
      ∀ i, i ∈ (buildFileStructure [ProjectFile.mk 1 101 none "src" true 0,
          ProjectFile.mk 2 101 (some 1) "a.txt" false 0]).roots ↔
        i ∈ (buildFileStructure [ProjectFile.mk 2 101 (some 1) "a.txt" false 0,
          ProjectFile.mk 1 101 none "src" true 0]).roots :=
  claim_C6 (by decide) (by decide) (by decide)

/-- C7: the pagination window computation (modelled from the spec, the
middleware source being absent from the snapshot) never fails and always
yields a usable window: a missing, non-numeric, zero or negative limit becomes
the default 25, a missing, non-numeric or negative offset becomes 0; in
particular both quoted instances hold, and the result always has a positive
limit and a non-negative offset. -/
theorem claim_C7 :
    paginationCompute .missing .missing = (25, 0) ∧
      paginationCompute (.numeric (-5)) (.numeric (-10)) = (25, 0) ∧
      (∀ ro, (paginationCompute .missing ro).1 = 25) ∧
      (∀ s ro, (paginationCompute (.nonNumeric s) ro).1 = 25) ∧
      (∀ n ro, (paginationCompute (.numeric n) ro).1 = if n ≤ 0 then 25 else n) ∧
      (∀ rl, (paginationCompute rl .missing).2 = 0) ∧
      (∀ rl s, (paginationCompute rl (.nonNumeric s)).2 = 0) ∧
      (∀ rl n, (paginationCompute rl (.numeric n)).2 = if n < 0 then 0 else n) ∧
      ∀ rl ro, 0 < (paginationCompute rl ro).1 ∧ 0 ≤ (paginationCompute rl ro).2 := by
  refine ⟨by decide, by decide, fun _ => rfl, fun _ _ => rfl, fun _ _ => rfl,
    fun _ => rfl, fun _ _ => rfl, fun _ _ => rfl, ?_⟩
  intro rl ro
  constructor
  · cases rl with
    | missing => show (0 : Int) < 25; decide
    | nonNumeric s => show (0 : Int) < 25; decide
    | numeric n =>
        show (0 : Int) < if n ≤ 0 then 25 else n
        rcases le_or_lt n 0 with h | h
        · rw [if_pos h]; decide
        · rw [if_neg (not_le.2 h)]; exact h
  · cases ro with
    | missing => show (0 : Int) ≤ 0; decide
    | nonNumeric s => show (0 : Int) ≤ 0; decide
    | numeric n =>
        show (0 : Int) ≤ if n < 0 then 0 else n
        rcases lt_or_le n 0 with h | h
        · rw [if_pos h]
        · rw [if_neg (not_lt.2 h)]; exact h

/-- C8: the link set built by the HATEOAS helper (modelled from the spec, the
helper source being absent from the snapshot): the last link's offset is
`max 0 ((total - 1) / limit * limit)` for positive totals and 0 otherwise, a
prev link exists exactly when the offset is positive and then uses offset
`max 0 (offset - limit)`, and a next link exists exactly when
`offset + limit < total` and then uses offset `offset + limit`. -/
theorem claim_C8 (baseUrl : String) (total limit offset : Int)
    (htotal : 0 ≤ total) (hlimit : 0 < limit) (hoffset : 0 ≤ offset) :
    ((hateoasBuild baseUrl total limit offset).last.offset =
        if 0 < total then max 0 ((total - 1) / limit * limit) else 0) ∧
      ((hateoasBuild baseUrl total limit offset).prev.isSome ↔ 0 < offset) ∧
      (∀ pl, (hateoasBuild baseUrl total limit offset).prev = some pl →
        pl.offset = max 0 (offset - limit)) ∧
      ((hateoasBuild baseUrl total limit offset).next.isSome ↔ offset + limit < total) ∧
      ∀ pl, (hateoasBuild baseUrl total limit offset).next = some pl →
        pl.offset = offset + limit := by
  refine ⟨rfl, ?_, ?_, ?_, ?_⟩
  · show (if 0 < offset then
        some (PageLink.mk baseUrl limit (max 0 (offset - limit))) else none).isSome ↔ _
    by_cases h : 0 < offset
    · rw [if_pos h]; simp [h]
    · rw [if_neg h]; simp [h]
  · intro pl hpl
    have hpl' : (if 0 < offset then
        some (PageLink.mk baseUrl limit (max 0 (offset - limit))) else none) = some pl := hpl
    by_cases h : 0 < offset
    · rw [if_pos h] at hpl'
      cases hpl'
      rfl
    · rw [if_neg h] at hpl'
      cases hpl'
  · show (if offset + limit < total then
        some (PageLink.mk baseUrl limit (offset + limit)) else none).isSome ↔ _
    by_cases h : offset + limit < total
    · rw [if_pos h]; simp [h]
    · rw [if_neg h]; simp [h]
  · intro pl hpl
    have hpl' : (if offset + limit < total then
        some (PageLink.mk baseUrl limit (offset + limit)) else none) = some pl := hpl
    by_cases h : offset + limit < total
    · rw [if_pos h] at hpl'
      cases hpl'
      rfl
    · rw [if_neg h] at hpl'
      cases hpl'

/-- C8, witness at total 30, limit 25, offset 25 (the spec's last-page
boundary instance). -/
theorem claim_C8_witness :
    ((hateoasBuild "u" 30 25 25).last.offset =
        if (0 : Int) < 30 then max 0 ((30 - 1) / 25 * 25) else 0) ∧
      ((hateoasBuild "u" 30 25 25).prev.isSome ↔ (0 : Int) < 25) ∧
      (∀ pl, (hateoasBuild "u" 30 25 25).prev = some pl →
        pl.offset = max 0 (25 - 25)) ∧
      ((hateoasBuild "u" 30 25 25).next.isSome ↔ (25 : Int) + 25 < 30) ∧
      ∀ pl, (hateoasBuild "u" 30 25 25).next = some pl → pl.offset = 25 + 25 :=
  claim_C8 "u" 30 25 25 (by decide) (by decide) (by decide)

/-- C9: a record whose ParentDirectory field is the number 0 fails the
JavaScript truthiness guard, so it is appended to the root-level sequence —
even when another record of the batch has id 0 — and the id-0 node never
receives children (a parent reference of 0 is never looked up). -/
theorem claim_C9 {files : List ProjectFile} {f : ProjectFile}
    (hf : f ∈ files) (hp : f.ParentDirectory = some 0) :
    f.FileID ∈ (buildFileStructure files).roots ∧
      ∀ name, getChild (buildFileStructure files) 0 name = none := by
  constructor
  · exact mem_roots_build.2 ⟨f, hf, by simp [parentKey, hp], rfl⟩
  · intro name
    cases hq : getChild (buildFileStructure files) 0 name with
    | none => rfl
    | some c =>
        exfalso
        rcases getChild_build_sound hq with ⟨g, _, hmk, _, _⟩
        rw [matchKey, Bool.and_eq_true, decide_eq_true_eq, decide_eq_true_eq] at hmk
        exact parentKey_ne_some_zero g hmk.1

/-- C9, witness: a batch holding a record with id 0 and a record with parent
reference 0; the latter is a root and the id-0 node has no children. -/
theorem claim_C9_witness :
    (ProjectFile.mk 7 101 (some 0) "z" false 0).FileID ∈
        (buildFileStructure [ProjectFile.mk 0 101 none "r" true 0,
          ProjectFile.mk 7 101 (some 0) "z" false 0]).roots ∧
      ∀ name, getChild (buildFileStructure [ProjectFile.mk 0 101 none "r" true 0,
          ProjectFile.mk 7 101 (some 0) "z" false 0]) 0 name = none :=
  claim_C9 (by decide) (by decide)

/-- C10: the builder is a pure function of its input — in this embedding every
node of the result wraps a record taken verbatim from the input batch and
keyed by its own id, root-level entries and children values refer only to
input ids, and equal inputs give structurally equal results. -/
theorem claim_C10 (files : List ProjectFile) :
    (∀ i r, jsGet (buildFileStructure files).fileMap i = some r → r ∈ files ∧ r.FileID = i) ∧
      (∀ i, i ∈ (buildFileStructure files).roots → i ∈ idsOf files) ∧
      (∀ i lst, jsGet (buildFileStructure files).childMap i = some lst →
        ∀ e ∈ lst, e.2 ∈ idsOf files) ∧
      ∀ files2, files = files2 → buildFileStructure files = buildFileStructure files2 := by
  refine ⟨?_, ?_, ?_, ?_⟩
  · intro i r h
    exact jsGet_initMap_sound h
  · intro i h
    rcases mem_roots_build.1 h with ⟨f, hf, _, rfl⟩
    exact List.mem_map.2 ⟨f, hf, rfl⟩
  · intro i lst h e he
    rcases childVal_build h e he with ⟨f, hf, hfe⟩
    exact List.mem_map.2 ⟨f, hf, hfe⟩
  · intro files2 h
    rw [h]

/-- C10, witness at a one-record batch: the single node wraps the input record
under its own id. -/
theorem claim_C10_witness :
    ProjectFile.mk 1 101 none "src" true 0 ∈ [ProjectFile.mk 1 101 none "src" true 0] ∧
      (ProjectFile.mk 1 101 none "src" true 0).FileID = 1 :=
  (claim_C10 [ProjectFile.mk 1 101 none "src" true 0]).1 1
    (ProjectFile.mk 1 101 none "src" true 0) (by decide)

end AppService
